import Mathlib

set_option maxHeartbeats 1000000

/-!
Shallow embedding of the md_parse repository (src/parse.py): a
line-oriented, context-stack markdown parser (`Parser.parse`), its HTML
renderer (`HtmlRenderer`) and its table-of-contents builder
(`ContentsParser`).

Modelling conventions:
* Python strings are `List Char` internally (wrapped into `String` at the
  block/renderer interface); the whitespace predicates cover the ASCII
  whitespace characters, which is what every input of this development
  uses.
* Python exceptions are `Except String`; the two reachable exceptions are
  the "Invalid indent" raised by `IndentContext.applyIndent` and the
  `TypeError` raised when a context class whose constructor takes no
  indent argument is instantiated with one from inside a list context.
* The parser's main `while` loop is a fueled iteration `run`; `none`
  means the fuel was exhausted (the source loop has no bound, so
  non-termination of the source is `∀ fuel, run fuel … = none`).
* The Python context stack `ccontexts` is a `List Context` whose HEAD is
  the top of the stack (Python appends/pops at the end of its list).
-/

/-- Python `str.isspace` on a single character, restricted to the ASCII
whitespace characters (space, tab, newline, carriage return, vertical
tab, form feed). -/
def pyIsSpaceChar (c : Char) : Bool :=
  c = ' ' || c = '\t' || c = '\n' || c = '\r' || c = '\x0b' || c = '\x0c'

/-- Python `str.isspace`: true iff the string is nonempty and every
character is whitespace (so `"".isspace()` is `False`). -/
def pyIsSpace (s : List Char) : Bool :=
  !s.isEmpty && s.all pyIsSpaceChar

/-- Python `str.lstrip(set)`: drop leading characters that belong to the
given character SET (not prefix removal). -/
def pyLstripSet (cs : List Char) (s : List Char) : List Char :=
  s.dropWhile (fun c => cs.contains c)

/-- Python `str.rstrip(set)`: drop trailing characters from the set. -/
def pyRstripSet (cs : List Char) (s : List Char) : List Char :=
  (pyLstripSet cs s.reverse).reverse

/-- Python `str.rstrip()` (no argument): strip trailing whitespace. -/
def pyRstrip (s : List Char) : List Char :=
  (s.reverse.dropWhile pyIsSpaceChar).reverse

/-- Python `str.lstrip()` (no argument): strip leading whitespace. -/
def pyLstrip (s : List Char) : List Char :=
  s.dropWhile pyIsSpaceChar

/-- Python `str.strip()`: strip whitespace on both sides. -/
def pyStrip (s : List Char) : List Char :=
  pyRstrip (pyLstrip s)

/-- Python `str.split('\n')`; in particular `"".split('\n') == [""]`. -/
def pySplitNl (s : List Char) : List (List Char) :=
  match s with
  | [] => [[]]
  | c :: t =>
    match pySplitNl t with
    | [] => [[]]
    | r :: rs => if c = '\n' then [] :: r :: rs else (c :: r) :: rs

/-- Decimal digits of a natural number, as Python `str(n)` produces for
the (always positive) ordered-list counter. -/
def pyStrNat (n : Nat) : List Char :=
  (toString n).data

mutual
/-- `Block` from the source: a tagged record `Block(tp, apply_filter,
**kwargs)`.  The kwargs used anywhere in the source are `text`,
`elements`, `hcnt`, `lang`; the attribute `anchor` is assigned
dynamically by `ContentsParser.parse` (`e.anchor = cnt`), modelled as an
`Option Nat` that is `none` until assigned.  Fields a given block kind
never uses keep their defaults. -/
inductive Block where
  | mk (type : String) (applyFilter : Bool) (text : String)
       (elements : List Elem) (hcnt : Nat) (lang : String)
       (anchor : Option Nat)

/-- One entry of a `Block.elements` list: the source stores either child
`Block`s (lists) or plain strings (quotes) in those Python lists, and
the renderer dispatches on `isinstance(ele, Block)`. -/
inductive Elem where
  | blk (b : Block)
  | str (s : String)
end

def Block.type : Block → String
  | .mk t _ _ _ _ _ _ => t

def Block.applyFilter : Block → Bool
  | .mk _ af _ _ _ _ _ => af

def Block.text : Block → String
  | .mk _ _ tx _ _ _ _ => tx

def Block.elements : Block → List Elem
  | .mk _ _ _ els _ _ _ => els

def Block.hcnt : Block → Nat
  | .mk _ _ _ _ h _ _ => h

def Block.lang : Block → String
  | .mk _ _ _ _ _ lg _ => lg

def Block.anchor : Block → Option Nat
  | .mk _ _ _ _ _ _ a => a

/-- `Block('paragraph', text=line)`. -/
def paragraphB (t : List Char) : Block :=
  .mk "paragraph" true ⟨t⟩ [] 0 "" none

/-- `Block('listitem', elements=self.li_eles)`. -/
def listitemB (els : List Block) : Block :=
  .mk "listitem" true "" (els.map .blk) 0 "" none

/-- `Block('ulist', elements=self.elements)`. -/
def ulistB (els : List Block) : Block :=
  .mk "ulist" true "" (els.map .blk) 0 "" none

/-- `Block('olist', elements=self.elements)`. -/
def olistB (els : List Block) : Block :=
  .mk "olist" true "" (els.map .blk) 0 "" none

/-- `Block('quote', elements=self.elements)` — quote elements are plain
strings in the source. -/
def quoteB (els : List (List Char)) : Block :=
  .mk "quote" true "" (els.map (fun l => .str ⟨l⟩)) 0 "" none

/-- `Block('code', apply_filter=False, text='\n'.join(...), lang=...)`. -/
def codeB (text lang : List Char) : Block :=
  .mk "code" false ⟨text⟩ [] 0 ⟨lang⟩ none

/-- `Block('headline', text=self.text, hcnt=self.hcnt)`. -/
def headlineB (text : List Char) (h : Nat) : Block :=
  .mk "headline" true ⟨text⟩ [] h "" none

/-- `Block('hline')`. -/
def hlineB : Block :=
  .mk "hline" true "" [] 0 "" none

/-- The live state of one `Context` instance from the source, one
variant per context class.  `Table`/`Math`/`InlineMath` placeholders
(`match` always `False`) are never instantiated; `inert` stands for the
behaviourless base `Context` should one ever be created. -/
inductive Context where
  | headline (hcnt : Nat) (text : List Char)
  | hline
  | code (indent : Nat) (inside : Bool) (lang : List Char)
         (elements : List (List Char))
  | ulist (indent : Nat) (elements : List Block) (liEles : List Block)
  | olist (indent : Nat) (cnt : Nat) (elements : List Block)
          (liEles : List Block)
  | quote (indent : Nat) (elements : List (List Char))
  | inert

/-- The registered context classes, i.e. the entries of
`Parser.contexts`, in source order (priority order of `match`). -/
inductive ContextType where
  | headlineT | hlineT | codeT | ulistT | olistT | quoteT
  | tableT | mathT

/-- The static `match(line)` predicate of each registered context class,
translated clause by clause:
* Headline: `line.startswith('#') and not len(line) > 70`;
* HLine: full match of `-{3,}` or `={3,}`;
* Code: `line.strip().startswith("```")`;
* UList: `line.startswith('- ')`;
* OList: `line.startswith('1. ')`;
* Quote: `line.startswith('>')`;
* Table/Math: `False`. -/
def ctxMatch : ContextType → List Char → Bool
  | .headlineT, l => "#".data.isPrefixOf l && !(l.length > 70)
  | .hlineT, l =>
      (l.length ≥ 3 && l.all (fun c => c = '-')) ||
      (l.length ≥ 3 && l.all (fun c => c = '='))
  | .codeT, l => "```".data.isPrefixOf (pyStrip l)
  | .ulistT, l => "- ".data.isPrefixOf l
  | .olistT, l => "1. ".data.isPrefixOf l
  | .quoteT, l => ">".data.isPrefixOf l
  | .tableT, _ => false
  | .mathT, _ => false

/-- `Parser.contexts`, in source order. -/
def registeredContexts : List ContextType :=
  [.headlineT, .hlineT, .codeT, .ulistT, .olistT, .quoteT,
   .tableT, .mathT]

/-- Instantiation `context(self)` performed by `Parser.contextMatch`:
every class initialiser with its source defaults (`indent=0`,
`inside=False`, `lang=''`, `cnt=1`, empty element buffers). -/
def mkContext : ContextType → Context
  | .headlineT => .headline 0 []
  | .hlineT => .hline
  | .codeT => .code 0 false [] []
  | .ulistT => .ulist 0 [] []
  | .olistT => .olist 0 1 [] []
  | .quoteT => .quote 0 []
  | .tableT => .inert
  | .mathT => .inert

/-- Instantiation `context(self.parser, indent)` performed from inside
`UListContext.handle` / `OListContext.handle`.  Only the
`IndentContext` subclasses (Code, UList, OList, Quote) accept the indent
argument; `HeadlineContext.__init__`, `HLineContext.__init__` and the
placeholder classes inherit `Context.__init__(self, parser)` and raise
`TypeError` when called with a third argument. -/
def mkContextIndent : ContextType → Nat → Except String Context
  | .codeT, i => .ok (.code i false [] [])
  | .ulistT, i => .ok (.ulist i [] [])
  | .olistT, i => .ok (.olist i 1 [] [])
  | .quoteT, i => .ok (.quote i [])
  | _, _ => .error "TypeError: context constructor takes no indent argument"

/-- The mutable fields of the source `Parser` object that the parse loop
touches: the split line list, the cursor, the context stack (head =
top), and the accumulated top-level blocks. -/
structure Parser where
  lines : List (List Char)
  lineno : Nat
  ccontexts : List Context
  blocks : List Block

/-- `Parser.nextLine`. -/
def nextLine (s : Parser) : Parser :=
  { s with lineno := s.lineno + 1 }

/-- `Context.on_exit` of each variant: the list contexts flush a pending
`li_eles` buffer into `elements` as a ListItem; every other variant
inherits the no-op default. -/
def ctxOnExit : Context → Context
  | .ulist i els li =>
      if li.isEmpty then .ulist i els li
      else .ulist i (els ++ [listitemB li]) li
  | .olist i c els li =>
      if li.isEmpty then .olist i c els li
      else .olist i c (els ++ [listitemB li]) li
  | c => c

/-- `Context.create` of each variant (the base class returns
`Block("null")`, used by the `inert` placeholder). -/
def ctxCreate : Context → Block
  | .headline h t => headlineB t h
  | .hline => hlineB
  | .code _ _ lang els => codeB (List.intercalate ['\n'] els) lang
  | .ulist _ els _ => ulistB els
  | .olist _ _ els _ => olistB els
  | .quote _ els => quoteB els
  | .inert => .mk "null" true "" [] 0 "" none

/-- `Context.accept` of each variant.  The list contexts override it to
append into the current list item buffer `li_eles`.  All other variants
inherit the base-class version, which would append the block into their
(string-typed) `elements` list; in the source no context is ever pushed
above a non-list context (pushes happen only from `Parser.contextMatch`
onto an empty stack and from the two list handles), so that inherited
path is unreachable and is modelled as the identity. -/
def ctxAccept : Context → Block → Context
  | .ulist i els li, b => .ulist i els (li ++ [b])
  | .olist i c els li, b => .olist i c els (li ++ [b])
  | c, _ => c

/-- `Parser.contextExit`: pop the top context, run its `on_exit`, and
hand its `create()` block to the new top context (or to the top-level
block list when the stack empties).  The line cursor is untouched. -/
def contextExit (s : Parser) : Parser :=
  match s.ccontexts with
  | [] => s
  | c :: rest =>
    let b := ctxCreate (ctxOnExit c)
    match rest with
    | [] => { s with ccontexts := [], blocks := s.blocks ++ [b] }
    | p :: ps => { s with ccontexts := ctxAccept p b :: ps }

/-- First registered context type whose `match` accepts the line (the
probe loop shared by `Parser.contextMatch` and the two list handles). -/
def probeContexts (l : List Char) : Option ContextType :=
  registeredContexts.find? (fun ct => ctxMatch ct l)

/-- `HeadlineContext.handle`: count and strip the leading `#` run,
record the stripped text, consume the line, exit. -/
def countHashes : List Char → Nat × List Char
  | '#' :: t => let (n, r) := countHashes t; (n + 1, r)
  | l => (0, l)

def headlineHandle (h : Nat) (rest : List Context) (line : List Char)
    (s : Parser) : Except String Parser :=
  let (n, r) := countHashes line
  .ok (contextExit (nextLine
    { s with ccontexts := .headline (h + n) (pyStrip r) :: rest }))

/-- `HLineContext.handle`: consume the line and exit. -/
def hlineHandle (s : Parser) : Except String Parser :=
  .ok (contextExit (nextLine s))

/-- `CodeContext.handle`: `applyIndent` (raising "Invalid indent" when
the expected indentation columns are not all spaces), then the
two-state fence machine; every branch ends in `nextLine`. -/
def codeHandle (ind : Nat) (inside : Bool) (lang : List Char)
    (els : List (List Char)) (rest : List Context) (line : List Char)
    (s : Parser) : Except String Parser :=
  if line.take ind ≠ List.replicate ind ' ' then .error "Invalid indent"
  else
    let l := pyRstrip (line.drop ind)
    if "```".data.isPrefixOf (pyStrip l) then
      let l2 := pyStrip l
      if inside then
        .ok (nextLine (contextExit
          { s with ccontexts := .code ind false lang els :: rest }))
      else
        .ok (nextLine
          { s with ccontexts := .code ind true (l2.drop 3) els :: rest })
    else
      .ok (nextLine
        { s with ccontexts := .code ind inside lang (els ++ [l]) :: rest })

/-- `UListContext.handle`, branch for branch:
1. wrong indentation → exit without consuming;
2. marker `"- "` → flush pending item, `line.lstrip('- ').rstrip(' ')`
   (character-SET strips, as in the source), start new item, consume;
3. continuation (first two de-indented columns whitespace) → strip all
   leading spaces (`lstrip('  ')` is a set strip), probe the registered
   contexts and push the first match with `indent+2`, else append a
   paragraph to the current item and consume;
4. otherwise → exit without consuming. -/
def ulistHandle (ind : Nat) (els liE : List Block) (rest : List Context)
    (line : List Char) (s : Parser) : Except String Parser :=
  if ind ≠ 0 && !(pyIsSpace (line.take ind)) then .ok (contextExit s)
  else
    let l := line.drop ind
    if "- ".data.isPrefixOf l then
      let els' := if liE.isEmpty then els else els ++ [listitemB liE]
      let liE' : List Block := if liE.isEmpty then liE else []
      let t := pyRstripSet [' '] (pyLstripSet ['-', ' '] l)
      .ok (nextLine
        { s with ccontexts := .ulist ind els' (liE' ++ [paragraphB t]) :: rest })
    else if pyIsSpace (l.take 2) then
      let t := pyRstripSet [' '] (pyLstripSet [' '] l)
      match probeContexts t with
      | some ct =>
        match mkContextIndent ct (ind + 2) with
        | .ok c =>
            .ok { s with ccontexts := c :: .ulist ind els liE :: rest }
        | .error e => .error e
      | none =>
        .ok (nextLine
          { s with ccontexts := .ulist ind els (liE ++ [paragraphB t]) :: rest })
    else .ok (contextExit s)

/-- `OListContext.handle`: same shape as the unordered list with the
expected marker `str(cnt) + '. '`; the accepted item text is
`line.lstrip(expect).rstrip()` (again a character-set strip), the
continuation de-indent is an exact `len(expect)`-column slice, and a
nested push increases the indent by `len(expect)`. -/
def olistHandle (ind cnt : Nat) (els liE : List Block)
    (rest : List Context) (line : List Char) (s : Parser) :
    Except String Parser :=
  if ind ≠ 0 && !(pyIsSpace (line.take ind)) then .ok (contextExit s)
  else
    let expect := pyStrNat cnt ++ ". ".data
    let l := line.drop ind
    if expect.isPrefixOf l then
      let els' := if liE.isEmpty then els else els ++ [listitemB liE]
      let liE' : List Block := if liE.isEmpty then liE else []
      let t := pyRstrip (pyLstripSet expect l)
      .ok (nextLine
        { s with ccontexts := .olist ind (cnt + 1) els' (liE' ++ [paragraphB t]) :: rest })
    else if pyIsSpace (l.take expect.length) then
      let t := l.drop expect.length
      match probeContexts t with
      | some ct =>
        match mkContextIndent ct (ind + expect.length) with
        | .ok c =>
            .ok { s with ccontexts := c :: .olist ind cnt els liE :: rest }
        | .error e => .error e
      | none =>
        .ok (nextLine
          { s with ccontexts := .olist ind cnt els (liE ++ [paragraphB t]) :: rest })
    else .ok (contextExit s)

/-- `QuoteContext.handle`: `applyIndent` then either exit on a
non-`>` line (without consuming) or append `line.lstrip('>')` and
consume. -/
def quoteHandle (ind : Nat) (els : List (List Char))
    (rest : List Context) (line : List Char) (s : Parser) :
    Except String Parser :=
  if line.take ind ≠ List.replicate ind ' ' then .error "Invalid indent"
  else
    let l := pyRstrip (line.drop ind)
    if !(">".data.isPrefixOf l) then .ok (contextExit s)
    else
      .ok (nextLine
        { s with ccontexts := .quote ind (els ++ [pyLstripSet ['>'] l]) :: rest })

/-- Dispatch `self.ccontexts[-1].handle(line.rstrip())`.  The base
`Context.handle` is `pass` (state unchanged); it belongs to the never
instantiated placeholder classes. -/
def handleContext (c : Context) (rest : List Context) (line : List Char)
    (s : Parser) : Except String Parser :=
  match c with
  | .headline h _ => headlineHandle h rest line s
  | .hline => hlineHandle s
  | .code ind inside lang els => codeHandle ind inside lang els rest line s
  | .ulist ind els liE => ulistHandle ind els liE rest line s
  | .olist ind cnt els liE => olistHandle ind cnt els liE rest line s
  | .quote ind els => quoteHandle ind els rest line s
  | .inert => .ok s

/-- `Parser.handle` (top-level dispatch on an empty stack):
`contextMatch` pushes the first matching registered context without
advancing the cursor; if nothing matches the line becomes a top-level
paragraph and the cursor advances. -/
def parserHandle (s : Parser) (line : List Char) : Parser :=
  match probeContexts line with
  | some ct => { s with ccontexts := mkContext ct :: s.ccontexts }
  | none => nextLine { s with blocks := s.blocks ++ [paragraphB line] }

/-- Result of one iteration of the `while self.lineno < len(self.lines)`
loop body. -/
inductive StepOut where
  | next (s : Parser)
  | fail (e : String)

/-- One iteration of the parse loop: read `lines[lineno]`, right-strip
it, and dispatch to the top context (or to the top-level handler). -/
def step (s : Parser) : StepOut :=
  let line := pyRstrip (s.lines.getD s.lineno [])
  match s.ccontexts with
  | [] => .next (parserHandle s line)
  | c :: rest =>
    match handleContext c rest line s with
    | .ok s' => .next s'
    | .error e => .fail e

/-- The drain loop `while self.ccontexts: self.contextExit()`, run for a
given number of pops (the callers pass the stack depth). -/
def drainN : Nat → Parser → Parser
  | 0, s => s
  | n + 1, s => drainN n (contextExit s)

/-- Drain every open context at end of input, deepest (stack top)
first. -/
def drain (s : Parser) : Parser :=
  drainN s.ccontexts.length s

/-- The fueled main loop of `Parser.parse`: `none` means the fuel ran
out before the loop finished (the source loop is unbounded, so a source
infinite loop is `∀ fuel, run fuel s = none`); after the loop the open
contexts are drained and the top-level block list returned. -/
def run : Nat → Parser → Option (Except String (List Block))
  | 0, _ => none
  | n + 1, s =>
    if s.lineno < s.lines.length then
      match step s with
      | .next s' => run n s'
      | .fail e => some (.error e)
    else some (.ok (drain s).blocks)

/-- The parser state at the start of `Parser.parse(src)`:
`self.lines = src.rstrip().split('\n')`, cursor 0, fresh stack and block
list. -/
def initParser (src : String) : Parser :=
  { lines := pySplitNl (pyRstrip src.data), lineno := 0,
    ccontexts := [], blocks := [] }

/-- `Parser.parse(src)` with the given loop fuel. -/
def parse (fuel : Nat) (src : String) : Option (Except String (List Block)) :=
  run fuel (initParser src)

/-!
The HTML renderer.  `HtmlRenderer.filter` chains `re.sub` over an
ordered list of (pattern, replacement) pairs.  Every source pattern is a
concatenation of literal pieces, lazy groups `(.+?)` and the bare `$`
end-of-line anchor, so the engine below implements exactly that regex
subset with Python semantics: a scan for the leftmost match, a lazy
group taking the fewest (one or more) non-newline characters that lets
the rest of the pattern match (with backtracking), `$` matching the
empty string at the end of the input or just before a trailing final
newline, and global non-overlapping substitution. -/

/-- One token of a source regex pattern. -/
inductive PatTok where
  | lit (cs : List Char)
  | grp
  | eol

/-- One token of a source replacement template (`\1`, `\2` are
`ref 1`, `ref 2`). -/
inductive RepTok where
  | lit (cs : List Char)
  | ref (i : Nat)

/-- Lazy-group helper: consume `1..` non-newline characters, preferring
the shortest expansion after which `next` (the rest of the pattern)
matches; `acc` holds the characters consumed so far. -/
def matchGrpAux
    (next : List PatTok → List Char → Option (Nat × List (List Char)))
    (ts : List PatTok) : List Char → List Char →
    Option (Nat × List (List Char))
  | _, [] => none
  | acc, c :: r =>
    if c = '\n' then none
    else
      match next ts r with
      | some (n, gs) => some (1 + n, (acc ++ [c]) :: gs)
      | none =>
        match matchGrpAux next ts (acc ++ [c]) r with
        | some (n, gs) => some (1 + n, gs)
        | none => none

/-- Fueled pattern matcher at a fixed position: returns the number of
characters consumed and the captured groups in order.  The fuel only
needs to cover the pattern length (each step consumes one token). -/
def matchToksF : Nat → List PatTok → List Char →
    Option (Nat × List (List Char))
  | 0, _, _ => none
  | _ + 1, [], _ => some (0, [])
  | f + 1, .lit cs :: ts, s =>
    if cs.isPrefixOf s then
      match matchToksF f ts (s.drop cs.length) with
      | some (n, gs) => some (cs.length + n, gs)
      | none => none
    else none
  | f + 1, .eol :: ts, s =>
    if s.isEmpty || s = ['\n'] then matchToksF f ts s else none
  | f + 1, .grp :: ts, s => matchGrpAux (matchToksF f) ts [] s

/-- Match a whole pattern at the current position. -/
def matchToks (p : List PatTok) (s : List Char) :
    Option (Nat × List (List Char)) :=
  matchToksF (p.length + 1) p s

/-- Instantiate a replacement template with the captured groups. -/
def applyRepl (repl : List RepTok) (gs : List (List Char)) : List Char :=
  repl.foldr
    (fun t acc =>
      (match t with
       | .lit cs => cs
       | .ref i => gs.getD (i - 1) []) ++ acc) []

/-- Fueled scan of `re.sub`: at each position try the pattern; on a
match emit the instantiated replacement and continue after it, else
copy one character.  Every source pattern contains a `(.+?)` group, so
a match always consumes at least one character and fuel = length + 1
completes the scan (zero-length matches cannot occur). -/
def subScanF (p : List PatTok) (repl : List RepTok) :
    Nat → List Char → List Char
  | 0, s => s
  | f + 1, s =>
    match s with
    | [] => []
    | c :: rest =>
      match matchToks p s with
      | some (n, gs) =>
        if n = 0 then c :: subScanF p repl f rest
        else applyRepl repl gs ++ subScanF p repl f (s.drop n)
      | none => c :: subScanF p repl f rest

/-- `re.sub(pattern, repl, s)` for the source's pattern subset. -/
def pySub (p : List PatTok) (repl : List RepTok) (s : List Char) :
    List Char :=
  subScanF p repl (s.length + 1) s

/-- `HtmlRenderer.filters`, in source order, each regex translated token
by token:
1. `!\[alt (.+?)\]\((.+?)\)` → `<img alt="\1" src="\2" />`;
2. `\[\]\((.+?)\)` → `<a href="\1">\1</a>`;
3. `\[(.+?)\]\((.+?)\)` → `<a href="\2">\1</a>`;
4. `\*\*(.+?)\*\*` → `<span class="em">\1</span>`;
5. `\*(.+?)\*` → `<span class="ita">\1</span>`;
6. `` `(.+?)` `` → `· <code>\1</code> ·` (with real spaces);
7. `$(.+?)$` → `\1` — the `$` here are UNESCAPED end anchors, so this
   pattern requires one or more non-newline characters after an
   end-of-input position and never matches anything. -/
def htmlFilters : List (List PatTok × List RepTok) :=
  [([.lit "![alt ".data, .grp, .lit "](".data, .grp, .lit ")".data],
    [.lit "<img alt=\"".data, .ref 1, .lit "\" src=\"".data, .ref 2,
     .lit "\" />".data]),
   ([.lit "[](".data, .grp, .lit ")".data],
    [.lit "<a href=\"".data, .ref 1, .lit "\">".data, .ref 1,
     .lit "</a>".data]),
   ([.lit "[".data, .grp, .lit "](".data, .grp, .lit ")".data],
    [.lit "<a href=\"".data, .ref 2, .lit "\">".data, .ref 1,
     .lit "</a>".data]),
   ([.lit "**".data, .grp, .lit "**".data],
    [.lit "<span class=\"em\">".data, .ref 1, .lit "</span>".data]),
   ([.lit "*".data, .grp, .lit "*".data],
    [.lit "<span class=\"ita\">".data, .ref 1, .lit "</span>".data]),
   ([.lit "`".data, .grp, .lit "`".data],
    [.lit " <code>".data, .ref 1, .lit "</code> ".data]),
   ([.eol, .grp, .eol], [.ref 1])]

/-- `HtmlRenderer.filter`: chain the substitutions in list order, each
rule applied globally over the whole text before the next one runs. -/
def htmlFilter (s : String) : String :=
  ⟨htmlFilters.foldl (fun d pr => pySub pr.fst pr.snd d) s.data⟩

/-- The string content of a quote element.  `render_quote` joins
`block.elements` with `'</p><p>'`; those elements are always plain
strings (a `Block` there would make the source `str.join` raise), so a
`blk` entry is mapped to the empty string. -/
def elemText : Elem → String
  | .str s => s
  | .blk _ => ""

mutual
/-- `HtmlRenderer._render` plus the per-kind `render_*` methods,
dispatching on the block's `type` tag; unknown kinds fall back to the
empty string (`rdefault`).  `render_headline` wraps the heading in an
`<a name=...>` exactly when the block carries the dynamically assigned
`anchor` attribute; `render_code` emits the text verbatim, with no
filter call. -/
def renderBlock : Block → String
  | .mk t _ tx els h lg anc =>
    if t = "headline" then
      match anc with
      | some a =>
        "<h" ++ toString h ++ "><a name=\"" ++ toString a ++ "\">" ++
        htmlFilter tx ++ "</a></h" ++ toString h ++ ">"
      | none =>
        "<h" ++ toString h ++ ">" ++ htmlFilter tx ++ "</h" ++
        toString h ++ ">"
    else if t = "hline" then "<hr />"
    else if t = "code" then
      "<pre><code class=\"hljs " ++ lg ++ "\">" ++ tx ++ "</code></pre>"
    else if t = "paragraph" then "<p>" ++ htmlFilter tx ++ "</p>"
    else if t = "quote" then
      "<blockquote><p>" ++
      htmlFilter (String.intercalate "</p><p>" (els.map elemText)) ++
      "</p></blockquote>"
    else if t = "olist" then "<ol>" ++ renderElems els ++ "</ol>"
    else if t = "ulist" then "<ul>" ++ renderElems els ++ "</ul>"
    else if t = "listitem" then "<li>" ++ renderElems els ++ "</li>"
    else ""

/-- The shared element loop of `render_olist` / `render_ulist` /
`render_listitem`: render child blocks recursively, splice plain
strings through unchanged, concatenate. -/
def renderElems : List Elem → String
  | [] => ""
  | .blk b :: t => renderBlock b ++ renderElems t
  | .str s :: t => s ++ renderElems t
end

/-- `HtmlRenderer.render`: concatenation of the rendered blocks. -/
def render (blocks : List Block) : String :=
  blocks.foldl (fun acc b => acc ++ renderBlock b) ""

/-!
The table-of-contents builder `ContentsParser.parse`.  The Python code
builds the heading forest by mutating `children` lists in place through
the aliases `peeks` (the list currently being appended to), `s` (the
stack of open ancestor nodes) and `last` (the most recently created
node).  The functional model keeps the same data as a stack of frames:
each frame holds an open ancestor's own data together with its parent's
completed sibling list; `curList` is the children list currently being
appended to (Python's `peeks`), and `lastH` mirrors the `last`
variable.  Two source invariants justify the representation and are
noted where used: `last` is always the final element of `peeks`, and a
node's `children` list is empty when the walk descends into it
(`last` is always the node created in the previous iteration). -/

/-- A node of the heading forest: the derived copy
`Block(tp='headline', text=..., hcnt=...)` with its `anchor` and
`children` attributes. -/
inductive CNode where
  | mk (anchor : Nat) (text : String) (hcnt : Nat)
       (children : List CNode)

def CNode.anchor : CNode → Nat
  | .mk a _ _ _ => a

def CNode.children : CNode → List CNode
  | .mk _ _ _ cs => cs

/-- An open ancestor (an entry of the Python stack `s`): its own
anchor/text/hcnt plus the completed part of its PARENT's children list,
restored when this node closes. -/
structure CFrame where
  parentList : List CNode
  anchor : Nat
  text : String
  hcnt : Nat

/-- The walk state of `ContentsParser.parse`: `frames` (head = top) is
the Python ancestor stack `s`, `curList` is `peeks`, `lastH` is `last`
(anchor, text, hcnt), `cnt` the anchor counter, and `blocksOut` the
input blocks as the walk leaves them (recording the `e.anchor = cnt`
mutation of the original headline blocks). -/
structure CState where
  frames : List CFrame
  curList : List CNode
  lastH : Option (Nat × String × Nat)
  cnt : Nat
  blocksOut : List Block

/-- Close the innermost open ancestor: its accumulated children are
`curList`, and the completed node goes back to the end of its parent's
sibling list (in Python the node already sat there by aliasing). -/
def cClose (st : CState) : CState :=
  match st.frames with
  | [] => st
  | f :: fs =>
    { st with frames := fs,
              curList := f.parentList ++
                [CNode.mk f.anchor f.text f.hcnt st.curList] }

/-- The `while s and s[-1].hcnt >= e.hcnt: s.pop()` loop, fueled by the
stack depth. -/
def cPopsN : Nat → Nat → CState → CState
  | 0, _, st => st
  | n + 1, h, st =>
    match st.frames with
    | [] => st
    | f :: _ => if f.hcnt ≥ h then cPopsN n h (cClose st) else st

def cPops (h : Nat) (st : CState) : CState :=
  cPopsN st.frames.length h st

/-- The `e.anchor = cnt` mutation performed on the ORIGINAL input block
(source line 408, before the derived copy is made). -/
def setAnchor (b : Block) (a : Nat) : Block :=
  match b with
  | .mk t af tx els h lg _ => .mk t af tx els h lg (some a)

/-- One iteration of the `for e in ast` loop of `ContentsParser.parse`:
non-headline blocks are skipped (but still flow into `blocksOut`);
a headline first receives its anchor (mutating the input block), then a
derived node is appended as sibling, as first child of `last`
(descend), or after popping the ancestors with `hcnt ≥ e.hcnt`.
On descend, Python pushes `last` onto `s` and switches `peeks` to
`last.children`; `last` is the final element of the current `peeks` and
its `children` is still empty, so the model removes that final element
and opens a frame for it with an empty `curList`. -/
def cStep (st : CState) (b : Block) : CState :=
  if b.type = "headline" then
    let a := st.cnt
    let tx := b.text
    let h := b.hcnt
    let node := CNode.mk a tx h []
    let base := { st with cnt := st.cnt + 1,
                          blocksOut := st.blocksOut ++ [setAnchor b a] }
    match st.lastH with
    | none =>
      { base with curList := st.curList ++ [node],
                  lastH := some (a, tx, h) }
    | some (la, lt, lh) =>
      if lh = h then
        { base with curList := st.curList ++ [node],
                    lastH := some (a, tx, h) }
      else if lh < h then
        { base with frames := ⟨st.curList.dropLast, la, lt, lh⟩ :: st.frames,
                    curList := [node],
                    lastH := some (a, tx, h) }
      else
        let st2 := cPops h base
        { st2 with curList := st2.curList ++ [node],
                   lastH := some (a, tx, h) }
  else { st with blocksOut := st.blocksOut ++ [b] }

/-- Close every frame still open after the walk, fueled by depth. -/
def cFinishN : Nat → CState → CState
  | 0, st => st
  | n + 1, st => cFinishN n (cClose st)

/-- `ContentsParser.parse(ast)`: returns the input block list as the
walk leaves it (every headline now carrying its anchor — in Python this
is the same, mutated, list the caller still holds) together with the
heading forest `roots`. -/
def contentsParse (ast : List Block) : List Block × List CNode :=
  let st := ast.foldl cStep
    { frames := [], curList := [], lastH := none, cnt := 1,
      blocksOut := [] }
  let st2 := cFinishN st.frames.length st
  (st.blocksOut, st2.curList)

/-- The `ContentsParser.parse` effect on the input blocks, stated
independently: each headline block, in document order, gets its
`anchor` attribute set to the next value of a counter; every other
block, and every other field, is untouched. -/
def anchorAnnotate : Nat → List Block → List Block
  | _, [] => []
  | c, b :: t =>
    if b.type = "headline" then setAnchor b c :: anchorAnnotate (c + 1) t
    else b :: anchorAnnotate c t

/-!
Well-formedness of produced blocks, for the `apply_filter` invariant:
a block is OK when `apply_filter` is `False` exactly on `code` blocks,
recursively through its elements. -/

mutual
def blockOK : Block → Bool
  | .mk t af _ els _ _ _ => (af == !(t == "code")) && elemsOK els

def elemsOK : List Elem → Bool
  | [] => true
  | .blk b :: r => blockOK b && elemsOK r
  | .str _ :: r => elemsOK r
end

/-- Context-stack well-formedness: every block buffered inside a live
list context is OK (the other contexts buffer only strings). -/
def ctxOK : Context → Bool
  | .ulist _ els li => els.all blockOK && li.all blockOK
  | .olist _ _ els li => els.all blockOK && li.all blockOK
  | _ => true

/-- Parser-state well-formedness. -/
def parserOK (s : Parser) : Bool :=
  s.blocks.all blockOK && s.ccontexts.all ctxOK

/-!
Helper lemmas about the parse-loop primitives. -/

theorem contextExit_lineno (s : Parser) :
    (contextExit s).lineno = s.lineno := by
  cases hc : s.ccontexts with
  | nil => simp [contextExit, hc]
  | cons c rest => cases rest <;> simp [contextExit, hc]

theorem contextExit_lines (s : Parser) :
    (contextExit s).lines = s.lines := by
  cases hc : s.ccontexts with
  | nil => simp [contextExit, hc]
  | cons c rest => cases rest <;> simp [contextExit, hc]

theorem contextExit_stack_length (s : Parser) :
    (contextExit s).ccontexts.length = s.ccontexts.length - 1 := by
  cases hc : s.ccontexts with
  | nil => simp [contextExit, hc]
  | cons c rest => cases rest <;> simp [contextExit, hc]

/-- The `lineno` after one loop iteration (unchanged on a `fail`). -/
def stepLineno (s : Parser) : Nat :=
  match step s with
  | .next s' => s'.lineno
  | .fail _ => s.lineno


theorem headlineHandle_lineno (h : Nat) (rest : List Context)
    (line : List Char) (s s' : Parser)
    (hh : headlineHandle h rest line s = .ok s') :
    s'.lineno = s.lineno + 1 := by
  unfold headlineHandle at hh
  rcases hcr : countHashes line with ⟨n, r⟩
  rw [hcr] at hh
  injection hh with hh
  subst hh
  simp [nextLine, contextExit_lineno]

theorem hlineHandle_lineno (s s' : Parser)
    (hh : hlineHandle s = .ok s') : s'.lineno = s.lineno + 1 := by
  unfold hlineHandle at hh
  injection hh with hh
  subst hh
  simp [nextLine, contextExit_lineno]

theorem codeHandle_lineno (ind : Nat) (inside : Bool) (lang : List Char)
    (els : List (List Char)) (rest : List Context) (line : List Char)
    (s s' : Parser)
    (hh : codeHandle ind inside lang els rest line s = .ok s') :
    s'.lineno = s.lineno + 1 := by
  unfold codeHandle at hh
  simp only [] at hh
  repeat' split at hh
  all_goals first
    | exact Except.noConfusion hh
    | (injection hh with hh
       subst hh
       simp [nextLine, contextExit_lineno])

theorem ulistHandle_lineno (ind : Nat) (els liE : List Block)
    (rest : List Context) (line : List Char) (s s' : Parser)
    (hh : ulistHandle ind els liE rest line s = .ok s') :
    s'.lineno = s.lineno ∨ s'.lineno = s.lineno + 1 := by
  unfold ulistHandle at hh
  simp only [] at hh
  repeat' split at hh
  all_goals first
    | exact Except.noConfusion hh
    | (injection hh with hh
       subst hh
       first
       | exact Or.inl (contextExit_lineno s)
       | exact Or.inl rfl
       | exact Or.inr (by simp [nextLine]))

theorem olistHandle_lineno (ind cnt : Nat) (els liE : List Block)
    (rest : List Context) (line : List Char) (s s' : Parser)
    (hh : olistHandle ind cnt els liE rest line s = .ok s') :
    s'.lineno = s.lineno ∨ s'.lineno = s.lineno + 1 := by
  unfold olistHandle at hh
  simp only [] at hh
  repeat' split at hh
  all_goals first
    | exact Except.noConfusion hh
    | (injection hh with hh
       subst hh
       first
       | exact Or.inl (contextExit_lineno s)
       | exact Or.inl rfl
       | exact Or.inr (by simp [nextLine]))

theorem quoteHandle_lineno (ind : Nat) (els : List (List Char))
    (rest : List Context) (line : List Char) (s s' : Parser)
    (hh : quoteHandle ind els rest line s = .ok s') :
    s'.lineno = s.lineno ∨ s'.lineno = s.lineno + 1 := by
  unfold quoteHandle at hh
  simp only [] at hh
  repeat' split at hh
  all_goals first
    | exact Except.noConfusion hh
    | (injection hh with hh
       subst hh
       first
       | exact Or.inl (contextExit_lineno s)
       | exact Or.inr (by simp [nextLine]))

/-- C1: during a parse the line cursor never moves by more than one line
per loop iteration and never moves backwards (so no line is skipped and
none is consumed twice), and `Parser.contextExit` — the pop performed
when a context rejects the current line — leaves the cursor and the
line list untouched while removing exactly the top context, so the very
same line is offered next to the enclosing context (or to top-level
matching once the stack is empty). -/
theorem claimC1_cursor_discipline : ∀ s : Parser,
    (stepLineno s = s.lineno ∨ stepLineno s = s.lineno + 1) ∧
    (contextExit s).lineno = s.lineno ∧
    (contextExit s).lines = s.lines ∧
    (contextExit s).ccontexts.length = s.ccontexts.length - 1 := by
  intro s
  refine ⟨?_, contextExit_lineno s, contextExit_lines s,
    contextExit_stack_length s⟩
  unfold stepLineno step
  cases hc : s.ccontexts with
  | nil =>
    simp only [parserHandle]
    cases hp : probeContexts (pyRstrip (s.lines[s.lineno]?.getD [])) with
    | none => exact Or.inr (by simp [hp, nextLine])
    | some ct => exact Or.inl (by simp [hp])
  | cons c rest =>
    cases c with
    | headline h t =>
      rcases hh : headlineHandle h rest (pyRstrip (s.lines[s.lineno]?.getD [])) s
        with e | s'
      · simp [handleContext, hh]
      · simpa [handleContext, hh] using
          Or.inr (headlineHandle_lineno h rest _ s s' hh)
    | hline =>
      rcases hh : hlineHandle s with e | s'
      · simp [handleContext, hh]
      · simpa [handleContext, hh] using Or.inr (hlineHandle_lineno s s' hh)
    | code ind inside lang els =>
      rcases hh : codeHandle ind inside lang els rest
        (pyRstrip (s.lines[s.lineno]?.getD [])) s with e | s'
      · simp [handleContext, hh]
      · simpa [handleContext, hh] using
          Or.inr (codeHandle_lineno ind inside lang els rest _ s s' hh)
    | ulist ind els liE =>
      rcases hh : ulistHandle ind els liE rest
        (pyRstrip (s.lines[s.lineno]?.getD [])) s with e | s'
      · simp [handleContext, hh]
      · simpa [handleContext, hh] using
          ulistHandle_lineno ind els liE rest _ s s' hh
    | olist ind cnt els liE =>
      rcases hh : olistHandle ind cnt els liE rest
        (pyRstrip (s.lines[s.lineno]?.getD [])) s with e | s'
      · simp [handleContext, hh]
      · simpa [handleContext, hh] using
          olistHandle_lineno ind cnt els liE rest _ s s' hh
    | quote ind els =>
      rcases hh : quoteHandle ind els rest
        (pyRstrip (s.lines[s.lineno]?.getD [])) s with e | s'
      · simp [handleContext, hh]
      · simpa [handleContext, hh] using
          quoteHandle_lineno ind els rest _ s s' hh
    | inert => exact Or.inl rfl

/-- C3: an ordered-list source with ordinals 1,2,3 parses to one olist
block with exactly three listitem children in source order; with
ordinals 1,3 the list closes after the first item without consuming the
"3. " line, which is re-offered at top level and — since
`OListContext.match` only accepts lines starting with "1. " — becomes a
new top-level paragraph. -/
theorem claimC3_olist_ordinals :
    parse 10 "1. a\n2. b\n3. c" =
      some (.ok [olistB [listitemB [paragraphB "a".data],
                         listitemB [paragraphB "b".data],
                         listitemB [paragraphB "c".data]]]) ∧
    parse 10 "1. a\n3. b" =
      some (.ok [olistB [listitemB [paragraphB "a".data]],
                 paragraphB "3. b".data]) :=
  ⟨rfl, rfl⟩

/-- C4 (the code contradicts the claim): when a line in a list item's
continuation region matches `HeadlineContext.match`, the list context
instantiates `HeadlineContext(self.parser, self.indent + 2)`, but
`HeadlineContext.__init__` (inherited from the base `Context`) takes no
indent argument, so the parse raises a TypeError instead of delegating —
the push only succeeds for the `IndentContext` subclasses (here shown
for a code fence nested in a list item). -/
theorem claimC4_nested_headline_raises :
    parse 10 "- a\n  # h" =
      some (.error "TypeError: context constructor takes no indent argument") ∧
    parse 10 "- a\n  ```\n  x\n  ```" =
      some (.ok [ulistB [listitemB [paragraphB "a".data,
                                    codeB "x".data []]]]) :=
  ⟨rfl, rfl⟩

/-- C7: the inline filter chain, applied in list order with each rule
substituted globally before the next runs, turns "**a*b*c**" into the
outer bold wrapping the inner italics: the double-asterisk rule runs
before the single-asterisk rule and consumes the outer pair first. -/
theorem claimC7_filter_order :
    htmlFilter "**a*b*c**" =
      "<span class=\"em\">a<span class=\"ita\">b</span>c</span>" :=
  rfl

/-- C8: the contents builder assigns anchors 1..5 in document order and
nests by level: for headline levels 1,2,2,1,3 (with an interleaved
non-headline block, which is skipped) the forest has two top-level
nodes, the first with the two level-2 children, the second with the one
level-3 child. -/
theorem claimC8_toc_nesting :
    (contentsParse [headlineB "one".data 1, paragraphB "p".data,
                    headlineB "two".data 2, headlineB "three".data 2,
                    headlineB "four".data 1,
                    headlineB "five".data 3]).snd =
      [CNode.mk 1 "one" 1 [CNode.mk 2 "two" 2 [],
                           CNode.mk 3 "three" 2 []],
       CNode.mk 4 "four" 1 [CNode.mk 5 "five" 3 []]] :=
  rfl

/-- C9 (the code contradicts the claim): the paragraph starting a new
list item is built with `line.lstrip('- ')` resp. `line.lstrip(expect)`,
which strip a character SET rather than the marker prefix: the member
line "- - a" yields item text "a" (the claim requires "- a"), and
"1. 1. b" yields "b" (the claim requires "1. b"). -/
theorem claimC9_marker_charset_strip :
    parse 10 "- - a" =
      some (.ok [ulistB [listitemB [paragraphB "a".data]]]) ∧
    parse 10 "1. 1. b" =
      some (.ok [olistB [listitemB [paragraphB "b".data]]]) :=
  ⟨rfl, rfl⟩

/-!
C2: non-termination.  On the input "- a\n   - b" the top-level
`UListContext` (indent 0) sees the 3-space-indented member line, strips
every leading space for the probe, matches `UListContext` again and
pushes a nested `UListContext(indent=2)`; that context de-indents by
exactly two columns, is left with " - b" (neither a marker nor
continuation), and exits without consuming; the parent immediately
re-pushes it, forever.  The two states of the cycle: -/

def c2lines : List (List Char) := ["- a".data, "   - b".data]

/-- Cycle state A: the top-level list is the only open context, the
cursor is stuck on line 1; `l` is its (growing) current-item buffer. -/
def c2A (l : List Block) : Parser :=
  Parser.mk c2lines 1 [Context.ulist 0 [] l] []

/-- Cycle state B: the freshly pushed nested list sits on top. -/
def c2B (l : List Block) : Parser :=
  Parser.mk c2lines 1 [Context.ulist 2 [] [], Context.ulist 0 [] l] []

theorem c2_stepA (l : List Block) : step (c2A l) = .next (c2B l) := rfl

theorem c2_stepB (l : List Block) :
    step (c2B l) = .next (c2A (l ++ [ulistB []])) := rfl

theorem c2_run_none : ∀ n (l : List Block),
    run n (c2A l) = none ∧ run n (c2B l) = none := by
  intro n
  induction n with
  | zero => exact fun l => ⟨rfl, rfl⟩
  | succ n ih =>
    intro l
    constructor
    · have h : run (n + 1) (c2A l) = run n (c2B l) := rfl
      rw [h]
      exact (ih l).2
    · have h : run (n + 1) (c2B l) = run n (c2A (l ++ [ulistB []])) := rfl
      rw [h]
      exact (ih (l ++ [ulistB []])).1

/-- C2 (the code contradicts the claim): `Parser.parse` does NOT
terminate on every finite input — on "- a\n   - b" the loop body never
advances the cursor past line 1 again, so no amount of loop fuel
finishes the parse (the source `while` loop runs forever, growing the
item buffer with empty nested ulist blocks). -/
theorem claimC2_parse_diverges : ∀ fuel : Nat,
    parse fuel "- a\n   - b" = none := by
  intro fuel
  match fuel with
  | 0 => rfl
  | 1 => rfl
  | (n + 2) =>
    have h : parse (n + 2) "- a\n   - b" =
        run n (c2A [paragraphB "a".data]) := rfl
    rw [h]
    exact (c2_run_none n [paragraphB "a".data]).1

/-!
C10: the contents builder mutates the parser's output.  Source line 408
(`e.anchor = cnt`) runs on the ORIGINAL block object before the derived
copy is made on line 409, and `HtmlRenderer.render_headline` branches on
`hasattr(block, 'anchor')`, so running the builder changes how the same
block sequence subsequently renders. -/

theorem cClose_outer (st : CState) :
    (cClose st).blocksOut = st.blocksOut ∧ (cClose st).cnt = st.cnt := by
  cases hf : st.frames with
  | nil => simp [cClose, hf]
  | cons f fs => simp [cClose, hf]

theorem cPopsN_outer : ∀ (n h : Nat) (st : CState),
    (cPopsN n h st).blocksOut = st.blocksOut ∧
    (cPopsN n h st).cnt = st.cnt := by
  intro n
  induction n with
  | zero => exact fun h st => ⟨rfl, rfl⟩
  | succ n ih =>
    intro h st
    cases hf : st.frames with
    | nil =>
      have he : cPopsN (n + 1) h st = st := by
        conv_lhs => rw [cPopsN]
        rw [hf]
      rw [he]
      exact ⟨rfl, rfl⟩
    | cons f fs =>
      by_cases hge : f.hcnt ≥ h
      · have he : cPopsN (n + 1) h st = cPopsN n h (cClose st) := by
          conv_lhs => rw [cPopsN]
          rw [hf]; simp only []; rw [if_pos hge]
        rw [he]
        rcases ih h (cClose st) with ⟨h1, h2⟩
        rcases cClose_outer st with ⟨h3, h4⟩
        exact ⟨h1.trans h3, h2.trans h4⟩
      · have he : cPopsN (n + 1) h st = st := by
          conv_lhs => rw [cPopsN]
          rw [hf]; simp only []; rw [if_neg hge]
        rw [he]
        exact ⟨rfl, rfl⟩

theorem cPops_blocksOut (h : Nat) (st : CState) :
    (cPops h st).blocksOut = st.blocksOut :=
  (cPopsN_outer st.frames.length h st).1

theorem cPops_cnt (h : Nat) (st : CState) :
    (cPops h st).cnt = st.cnt :=
  (cPopsN_outer st.frames.length h st).2

theorem cStep_outer (st : CState) (b : Block) :
    (cStep st b).blocksOut =
      st.blocksOut ++
        (if b.type = "headline" then [setAnchor b st.cnt] else [b]) ∧
    (cStep st b).cnt =
      st.cnt + (if b.type = "headline" then 1 else 0) := by
  unfold cStep
  by_cases hb : b.type = "headline"
  · cases hl : st.lastH with
    | none => simp [hb, hl]
    | some p =>
      rcases p with ⟨la, lt, lh⟩
      by_cases h1 : lh = b.hcnt
      · simp [hb, hl, h1]
      · by_cases h2 : lh < b.hcnt
        · simp [hb, hl, h1, h2]
        · simp [hb, hl, h1, h2, cPops_blocksOut, cPops_cnt]
  · simp [hb]

theorem contentsFold_blocksOut : ∀ (ast : List Block) (st : CState),
    (ast.foldl cStep st).blocksOut =
      st.blocksOut ++ anchorAnnotate st.cnt ast := by
  intro ast
  induction ast with
  | nil => intro st; simp [anchorAnnotate]
  | cons b t ih =>
    intro st
    rw [List.foldl_cons, ih]
    rcases cStep_outer st b with ⟨h1, h2⟩
    rw [h1, h2]
    by_cases hb : b.type = "headline" <;>
      simp [anchorAnnotate, hb, List.append_assoc]

/-- C10 counterexample: for the one-headline sequence, the block list
that `ContentsParser.parse` leaves behind differs from the input (the
headline gained its `anchor` attribute), and rendering the sequence
after the builder ran produces different HTML (`<a name="1">` appears)
than rendering it before — refuting both halves of the claim at this
concrete input. -/
theorem claimC10_builder_mutates :
    (contentsParse [headlineB "t".data 1]).fst ≠ [headlineB "t".data 1] ∧
    render (contentsParse [headlineB "t".data 1]).fst ≠
      render [headlineB "t".data 1] := by
  constructor
  · intro h
    have h2 := congrArg
      (fun l => Block.anchor (l.headD (headlineB "t".data 1))) h
    exact absurd h2 (by decide)
  · decide

/-- C10 amended: `ContentsParser.parse` mutates exactly the headline
blocks of its input, assigning each its document-order anchor (counter
starting at 1) via `e.anchor = cnt`; all other blocks and all other
fields are untouched, and a subsequent render IS affected, as
the counterexample shows (headlines then render with `<a name=...>`). -/
theorem claimC10_annotates_headlines : ∀ ast : List Block,
    (contentsParse ast).fst = anchorAnnotate 1 ast := by
  intro ast
  show (ast.foldl cStep
    { frames := [], curList := [], lastH := none, cnt := 1,
      blocksOut := [] }).blocksOut = anchorAnnotate 1 ast
  rw [contentsFold_blocksOut]
  simp

/-!
Well-formedness lemmas: every block the parser constructs satisfies
`blockOK` (apply_filter is false exactly on code blocks), and the
parser state preserves `parserOK` across the loop. -/

theorem elemsOK_append (l1 l2 : List Elem) :
    elemsOK (l1 ++ l2) = (elemsOK l1 && elemsOK l2) := by
  induction l1 with
  | nil => simp [elemsOK]
  | cons e t ih =>
    cases e with
    | blk b => simp [elemsOK, ih, Bool.and_assoc]
    | str s => simp [elemsOK, ih]

theorem elemsOK_map_blk (l : List Block) :
    elemsOK (l.map Elem.blk) = l.all blockOK := by
  induction l with
  | nil => rfl
  | cons b t ih => simp [elemsOK, ih, List.all_cons]

theorem elemsOK_map_str (l : List (List Char)) :
    elemsOK (l.map (fun s => Elem.str ⟨s⟩)) = true := by
  induction l with
  | nil => rfl
  | cons b t ih => simpa [elemsOK] using ih

theorem blockOK_paragraphB (t : List Char) :
    blockOK (paragraphB t) = true := rfl

theorem blockOK_listitemB (l : List Block) :
    blockOK (listitemB l) = l.all blockOK := by
  rw [show blockOK (listitemB l) =
        (true && elemsOK (l.map Elem.blk)) from rfl,
      Bool.true_and, elemsOK_map_blk]

theorem blockOK_ulistB (l : List Block) :
    blockOK (ulistB l) = l.all blockOK := by
  rw [show blockOK (ulistB l) =
        (true && elemsOK (l.map Elem.blk)) from rfl,
      Bool.true_and, elemsOK_map_blk]

theorem blockOK_olistB (l : List Block) :
    blockOK (olistB l) = l.all blockOK := by
  rw [show blockOK (olistB l) =
        (true && elemsOK (l.map Elem.blk)) from rfl,
      Bool.true_and, elemsOK_map_blk]

theorem blockOK_quoteB (l : List (List Char)) :
    blockOK (quoteB l) = true := by
  rw [show blockOK (quoteB l) =
        (true && elemsOK (l.map (fun s => Elem.str ⟨s⟩))) from rfl,
      Bool.true_and, elemsOK_map_str]

theorem ctxOnExit_ok (c : Context) (hc : ctxOK c = true) :
    ctxOK (ctxOnExit c) = true := by
  cases c with
  | ulist i els li =>
    simp only [ctxOK, Bool.and_eq_true] at hc
    by_cases he : li.isEmpty <;>
      simp [ctxOnExit, ctxOK, he, List.all_append, blockOK_listitemB,
            hc.1, hc.2]
  | olist i n els li =>
    simp only [ctxOK, Bool.and_eq_true] at hc
    by_cases he : li.isEmpty <;>
      simp [ctxOnExit, ctxOK, he, List.all_append, blockOK_listitemB,
            hc.1, hc.2]
  | headline h t => exact hc
  | hline => exact hc
  | code i ins lg els => exact hc
  | quote i els => exact hc
  | inert => exact hc

theorem ctxCreate_ok (c : Context) (hc : ctxOK c = true) :
    blockOK (ctxCreate c) = true := by
  cases c with
  | ulist i els li =>
    simp only [ctxOK, Bool.and_eq_true] at hc
    simp [ctxCreate, blockOK_ulistB, hc.1]
  | olist i n els li =>
    simp only [ctxOK, Bool.and_eq_true] at hc
    simp [ctxCreate, blockOK_olistB, hc.1]
  | headline h t => rfl
  | hline => rfl
  | code i ins lg els => rfl
  | quote i els => simp [ctxCreate, blockOK_quoteB]
  | inert => rfl

theorem ctxAccept_ok (p : Context) (b : Block) (hp : ctxOK p = true)
    (hb : blockOK b = true) : ctxOK (ctxAccept p b) = true := by
  cases p with
  | ulist i els li =>
    simp only [ctxOK, Bool.and_eq_true] at hp
    simp [ctxAccept, ctxOK, List.all_append, hp.1, hp.2, hb]
  | olist i n els li =>
    simp only [ctxOK, Bool.and_eq_true] at hp
    simp [ctxAccept, ctxOK, List.all_append, hp.1, hp.2, hb]
  | headline h t => exact hp
  | hline => exact hp
  | code i ins lg els => exact hp
  | quote i els => exact hp
  | inert => exact hp

theorem contextExit_ok (s : Parser) (hs : parserOK s = true) :
    parserOK (contextExit s) = true := by
  unfold parserOK at hs
  simp only [Bool.and_eq_true] at hs
  obtain ⟨hb, hcc⟩ := hs
  cases hc : s.ccontexts with
  | nil =>
    unfold contextExit
    rw [hc]
    unfold parserOK
    simp [hb]
    rw [hc]
    simp
  | cons c rest =>
    rw [hc] at hcc
    simp only [List.all_cons, Bool.and_eq_true] at hcc
    obtain ⟨hcO, hrest⟩ := hcc
    have hcreate : blockOK (ctxCreate (ctxOnExit c)) = true :=
      ctxCreate_ok _ (ctxOnExit_ok c hcO)
    cases hr : rest with
    | nil =>
      subst hr
      have he : contextExit s =
          { s with
            ccontexts := ([] : List Context),
            blocks := s.blocks ++ [ctxCreate (ctxOnExit c)] } := by
        unfold contextExit
        rw [hc]
      rw [he]
      simp [parserOK, List.all_append, hb, hcreate]
    | cons p ps =>
      subst hr
      have he : contextExit s =
          { s with
            ccontexts := ctxAccept p (ctxCreate (ctxOnExit c)) :: ps } := by
        unfold contextExit
        rw [hc]
      rw [he]
      simp only [List.all_cons, Bool.and_eq_true] at hrest
      simp [parserOK, List.all_cons, hb,
            ctxAccept_ok p _ hrest.1 hcreate, hrest.2]

theorem mkContext_ok (ct : ContextType) :
    ctxOK (mkContext ct) = true := by
  cases ct <;> rfl

theorem mkContextIndent_ok (ct : ContextType) (i : Nat) (c : Context)
    (h : mkContextIndent ct i = .ok c) : ctxOK c = true := by
  cases ct <;> simp [mkContextIndent] at h <;> subst h <;> rfl

theorem parserOK_nextLine (s : Parser) :
    parserOK (nextLine s) = parserOK s := rfl

theorem headlineHandle_ok (h : Nat) (rest : List Context)
    (line : List Char) (s s' : Parser) (hs : parserOK s = true)
    (hstack : ∃ c0, s.ccontexts = c0 :: rest)
    (hh : headlineHandle h rest line s = .ok s') :
    parserOK s' = true := by
  obtain ⟨c0, hc⟩ := hstack
  unfold headlineHandle at hh
  rcases hcr : countHashes line with ⟨n, r⟩
  rw [hcr] at hh
  injection hh with hh
  subst hh
  apply contextExit_ok
  rw [parserOK_nextLine]
  unfold parserOK at hs ⊢
  simp only [Bool.and_eq_true] at hs
  rw [hc] at hs
  simp only [List.all_cons, Bool.and_eq_true] at hs
  simp [List.all_cons, hs.1, hs.2.2, ctxOK]

theorem hlineHandle_ok (s s' : Parser) (hs : parserOK s = true)
    (hh : hlineHandle s = .ok s') : parserOK s' = true := by
  unfold hlineHandle at hh
  injection hh with hh
  subst hh
  apply contextExit_ok
  rw [parserOK_nextLine]
  exact hs

theorem codeHandle_ok (ind : Nat) (inside : Bool) (lang : List Char)
    (els : List (List Char)) (rest : List Context) (line : List Char)
    (s s' : Parser) (hs : parserOK s = true)
    (hstack : ∃ c0, s.ccontexts = c0 :: rest)
    (hh : codeHandle ind inside lang els rest line s = .ok s') :
    parserOK s' = true := by
  obtain ⟨c0, hc⟩ := hstack
  have hps := hs
  unfold parserOK at hps
  simp only [Bool.and_eq_true] at hps
  rw [hc] at hps
  simp only [List.all_cons, Bool.and_eq_true] at hps
  obtain ⟨hb, hcO, hrest⟩ := hps
  unfold codeHandle at hh
  simp only [] at hh
  repeat' split at hh
  all_goals first
    | exact Except.noConfusion hh
    | (injection hh with hh
       subst hh
       rw [parserOK_nextLine]
       first
       | (apply contextExit_ok
          simp [parserOK, List.all_cons, ctxOK, hb, hrest])
       | simp [parserOK, List.all_cons, ctxOK, hb, hrest])

theorem quoteHandle_ok (ind : Nat) (els : List (List Char))
    (rest : List Context) (line : List Char) (s s' : Parser)
    (hs : parserOK s = true) (hstack : ∃ c0, s.ccontexts = c0 :: rest)
    (hh : quoteHandle ind els rest line s = .ok s') :
    parserOK s' = true := by
  obtain ⟨c0, hc⟩ := hstack
  have hps := hs
  unfold parserOK at hps
  simp only [Bool.and_eq_true] at hps
  rw [hc] at hps
  simp only [List.all_cons, Bool.and_eq_true] at hps
  obtain ⟨hb, hcO, hrest⟩ := hps
  unfold quoteHandle at hh
  simp only [] at hh
  repeat' split at hh
  all_goals first
    | exact Except.noConfusion hh
    | (injection hh with hh
       subst hh
       first
       | exact contextExit_ok s hs
       | (rw [parserOK_nextLine]
          simp [parserOK, List.all_cons, ctxOK, hb, hrest]))

theorem ctxOK_ulist (i : Nat) (els li : List Block) :
    ctxOK (Context.ulist i els li) = (els.all blockOK && li.all blockOK) :=
  rfl

theorem ctxOK_olist (i n : Nat) (els li : List Block) :
    ctxOK (Context.olist i n els li) =
      (els.all blockOK && li.all blockOK) := rfl

theorem ulistHandle_ok (ind : Nat) (els liE : List Block)
    (rest : List Context) (line : List Char) (s s' : Parser)
    (hs : parserOK s = true)
    (hstack : s.ccontexts = Context.ulist ind els liE :: rest)
    (hh : ulistHandle ind els liE rest line s = .ok s') :
    parserOK s' = true := by
  have hps := hs
  unfold parserOK at hps
  simp only [Bool.and_eq_true] at hps
  rw [hstack] at hps
  simp only [List.all_cons, Bool.and_eq_true] at hps
  obtain ⟨hb, hcO, hrest⟩ := hps
  unfold ctxOK at hcO
  simp only [Bool.and_eq_true] at hcO
  obtain ⟨hels, hli⟩ := hcO
  unfold ulistHandle at hh
  simp only [] at hh
  split at hh
  · injection hh with hh
    subst hh
    exact contextExit_ok s hs
  · split at hh
    · -- marker branch: flush (or not) and start a new item
      split at hh <;>
        (injection hh with hh
         subst hh
         rw [parserOK_nextLine]
         simp [parserOK, List.all_cons, List.all_append, ctxOK,
               blockOK_listitemB, blockOK_paragraphB, hb, hels, hli,
               hrest])
    · split at hh
      · -- continuation region entered
        split at hh
        · -- a registered context matched: nested push
          split at hh
          · rename_i c2 hmk
            injection hh with hh
            subst hh
            have hcok := mkContextIndent_ok _ _ c2 hmk
            simp [parserOK, List.all_cons, ctxOK_ulist, ctxOK_olist,
                  hb, hels, hli, hrest, hcok]
          · exact Except.noConfusion hh
        · -- no match: plain paragraph into the item buffer
          injection hh with hh
          subst hh
          rw [parserOK_nextLine]
          simp [parserOK, List.all_cons, List.all_append, ctxOK,
                blockOK_paragraphB, hb, hels, hli, hrest]
      · injection hh with hh
        subst hh
        exact contextExit_ok s hs

theorem olistHandle_ok (ind cnt : Nat) (els liE : List Block)
    (rest : List Context) (line : List Char) (s s' : Parser)
    (hs : parserOK s = true)
    (hstack : s.ccontexts = Context.olist ind cnt els liE :: rest)
    (hh : olistHandle ind cnt els liE rest line s = .ok s') :
    parserOK s' = true := by
  have hps := hs
  unfold parserOK at hps
  simp only [Bool.and_eq_true] at hps
  rw [hstack] at hps
  simp only [List.all_cons, Bool.and_eq_true] at hps
  obtain ⟨hb, hcO, hrest⟩ := hps
  unfold ctxOK at hcO
  simp only [Bool.and_eq_true] at hcO
  obtain ⟨hels, hli⟩ := hcO
  unfold olistHandle at hh
  simp only [] at hh
  split at hh
  · injection hh with hh
    subst hh
    exact contextExit_ok s hs
  · split at hh
    · split at hh <;>
        (injection hh with hh
         subst hh
         rw [parserOK_nextLine]
         simp [parserOK, List.all_cons, List.all_append, ctxOK,
               blockOK_listitemB, blockOK_paragraphB, hb, hels, hli,
               hrest])
    · split at hh
      · split at hh
        · split at hh
          · rename_i c2 hmk
            injection hh with hh
            subst hh
            have hcok := mkContextIndent_ok _ _ c2 hmk
            simp [parserOK, List.all_cons, ctxOK_ulist, ctxOK_olist,
                  hb, hels, hli, hrest, hcok]
          · exact Except.noConfusion hh
        · injection hh with hh
          subst hh
          rw [parserOK_nextLine]
          simp [parserOK, List.all_cons, List.all_append, ctxOK,
                blockOK_paragraphB, hb, hels, hli, hrest]
      · injection hh with hh
        subst hh
        exact contextExit_ok s hs

theorem parserHandle_ok (s : Parser) (line : List Char)
    (hs : parserOK s = true) : parserOK (parserHandle s line) = true := by
  have hps := hs
  unfold parserOK at hps
  simp only [Bool.and_eq_true] at hps
  obtain ⟨hb, hcc⟩ := hps
  unfold parserHandle
  cases hp : probeContexts line with
  | some ct =>
    simp [parserOK, List.all_cons, mkContext_ok, hb, hcc]
  | none =>
    rw [parserOK_nextLine]
    simp [parserOK, List.all_append, blockOK_paragraphB, hb, hcc]

theorem step_ok (s s' : Parser) (hs : parserOK s = true)
    (hstep : step s = .next s') : parserOK s' = true := by
  unfold step at hstep
  simp only [] at hstep
  cases hc : s.ccontexts with
  | nil =>
    rw [hc] at hstep
    simp only [] at hstep
    injection hstep with hstep
    subst hstep
    exact parserHandle_ok s _ hs
  | cons c rest =>
    rw [hc] at hstep
    simp only [] at hstep
    cases hh : handleContext c rest (pyRstrip (s.lines.getD s.lineno [])) s with
    | error e => rw [hh] at hstep; exact StepOut.noConfusion hstep
    | ok s2 =>
      rw [hh] at hstep
      injection hstep with hstep
      subst hstep
      cases c with
      | headline h t =>
        exact headlineHandle_ok h rest _ s s2 hs ⟨_, hc⟩ hh
      | hline => exact hlineHandle_ok s s2 hs hh
      | code ind inside lang els =>
        exact codeHandle_ok ind inside lang els rest _ s s2 hs ⟨_, hc⟩ hh
      | ulist ind els liE =>
        exact ulistHandle_ok ind els liE rest _ s s2 hs hc hh
      | olist ind cnt els liE =>
        exact olistHandle_ok ind cnt els liE rest _ s s2 hs hc hh
      | quote ind els =>
        exact quoteHandle_ok ind els rest _ s s2 hs ⟨_, hc⟩ hh
      | inert =>
        have : s = s2 := by
          simpa [handleContext] using hh
        rw [← this]
        exact hs

theorem drainN_ok : ∀ (n : Nat) (s : Parser), parserOK s = true →
    parserOK (drainN n s) = true := by
  intro n
  induction n with
  | zero => exact fun s hs => hs
  | succ n ih =>
    intro s hs
    exact ih (contextExit s) (contextExit_ok s hs)

theorem run_ok : ∀ (n : Nat) (s : Parser) (bs : List Block),
    parserOK s = true → run n s = some (.ok bs) →
    bs.all blockOK = true := by
  intro n
  induction n with
  | zero => intro s bs _ h; exact Option.noConfusion h
  | succ n ih =>
    intro s bs hs h
    unfold run at h
    split at h
    · cases hst : step s with
      | next s2 =>
        rw [hst] at h
        exact ih s2 bs (step_ok s s2 hs hst) h
      | fail e =>
        rw [hst] at h
        injection h with h
        exact Except.noConfusion h
    · injection h with h
      injection h with h
      subst h
      have hd : parserOK (drain s) = true := drainN_ok _ s hs
      unfold parserOK at hd
      simp only [Bool.and_eq_true] at hd
      exact hd.1

/-- C5: every block `Parser.parse` emits satisfies `blockOK` — its
`apply_filter` flag is `false` exactly when its kind is `code`,
recursively through container elements — and a code block's text is
rendered verbatim: `render_code` never invokes the filter chain, so the
fenced text `**x**` reaches the HTML output as those literal
characters. -/
theorem claimC5_code_filter_flag :
    (∀ (fuel : Nat) (src : String) (bs : List Block),
      parse fuel src = some (.ok bs) → bs.all blockOK = true) ∧
    parse 10 "```py\n**x**\n```" =
      some (.ok [codeB "**x**".data "py".data]) ∧
    renderBlock (codeB "**x**".data "py".data) =
      "<pre><code class=\"hljs py\">**x**</code></pre>" := by
  refine ⟨?_, rfl, rfl⟩
  intro fuel src bs h
  exact run_ok fuel (initParser src) bs rfl h

/-- C5 witness: the invariant evaluated on the concrete fence parse. -/
theorem claimC5_witness :
    parse 10 "```py\n**x**\n```" =
      some (.ok [codeB "**x**".data "py".data]) ∧
    ([codeB "**x**".data "py".data] : List Block).all blockOK = true :=
  ⟨claimC5_code_filter_flag.2.1,
   claimC5_code_filter_flag.1 10 "```py\n**x**\n```"
     [codeB "**x**".data "py".data] claimC5_code_filter_flag.2.1⟩

theorem contextExit_single (s : Parser) (c : Context)
    (hc : s.ccontexts = [c]) :
    contextExit s =
      { s with
        ccontexts := ([] : List Context),
        blocks := s.blocks ++ [ctxCreate (ctxOnExit c)] } := by
  unfold contextExit
  rw [hc]

theorem contextExit_cons (s : Parser) (c p : Context) (ps : List Context)
    (hc : s.ccontexts = c :: p :: ps) :
    contextExit s =
      { s with
        ccontexts := ctxAccept p (ctxCreate (ctxOnExit c)) :: ps } := by
  unfold contextExit
  rw [hc]

theorem drainN_spec : ∀ (n : Nat) (s : Parser),
    s.ccontexts.length = n →
    (drainN n s).ccontexts = [] ∧
    (drainN n s).lineno = s.lineno ∧
    (drainN n s).lines = s.lines ∧
    (drainN n s).blocks.length =
      s.blocks.length + (if n = 0 then 0 else 1) := by
  intro n
  induction n with
  | zero =>
    intro s hlen
    have hc : s.ccontexts = [] := List.length_eq_zero.mp hlen
    exact ⟨hc, rfl, rfl, by simp [drainN]⟩
  | succ n ih =>
    intro s hlen
    cases hc : s.ccontexts with
    | nil => rw [hc] at hlen; exact absurd hlen (by simp)
    | cons c rest =>
      have hstep : drainN (n + 1) s = drainN n (contextExit s) := rfl
      rw [hstep]
      cases hr : rest with
      | nil =>
        subst hr
        rw [hc] at hlen
        simp only [List.length_cons, List.length_nil] at hlen
        have hn : n = 0 := by omega
        subst hn
        rw [contextExit_single s c hc]
        refine ⟨rfl, rfl, rfl, ?_⟩
        simp [drainN]
      | cons p ps =>
        subst hr
        rw [contextExit_cons s c p ps hc]
        have hlen2 :
            ({ s with
               ccontexts := ctxAccept p (ctxCreate (ctxOnExit c)) :: ps } :
              Parser).ccontexts.length = n := by
          rw [hc] at hlen
          simp at hlen ⊢
          omega
        rcases ih _ hlen2 with ⟨g1, g2, g3, g4⟩
        refine ⟨g1, g2, g3, ?_⟩
        rw [g4]
        have hn : n ≠ 0 := by
          rw [hc] at hlen
          simp at hlen
          omega
        simp [hn]

/-- C6: the end-of-input drain closes every open context (deepest, i.e.
stack top, first), each pop running `on_exit` then `create` once and
delivering exactly one block — to the parent context's buffer, or to
the top-level sequence when it is the outermost context (so the
top-level block count grows by exactly one when any context was open);
the cursor and line list are untouched; all drained blocks are
well-formed whenever the state was; and unterminated fence/list/quote
inputs parse to a normal result instead of failing. -/
theorem claimC6_drain_closes_all : ∀ s : Parser,
    (drain s).ccontexts = [] ∧
    (drain s).lineno = s.lineno ∧
    (drain s).lines = s.lines ∧
    (drain s).blocks.length =
      s.blocks.length + (if s.ccontexts.isEmpty then 0 else 1) ∧
    (parserOK s = true → (drain s).blocks.all blockOK = true) ∧
    (match s.ccontexts with
     | [] => contextExit s = s
     | [c] => contextExit s =
         { s with
           ccontexts := ([] : List Context),
           blocks := s.blocks ++ [ctxCreate (ctxOnExit c)] }
     | c :: p :: ps => contextExit s =
         { s with
           ccontexts := ctxAccept p (ctxCreate (ctxOnExit c)) :: ps }) ∧
    parse 10 "```py\nabc" = some (.ok [codeB "abc".data "py".data]) ∧
    parse 10 "- a" =
      some (.ok [ulistB [listitemB [paragraphB "a".data]]]) ∧
    parse 10 "> q" = some (.ok [quoteB [" q".data]]) := by
  intro s
  rcases drainN_spec s.ccontexts.length s rfl with ⟨g1, g2, g3, g4⟩
  refine ⟨g1, g2, g3, ?_, ?_, ?_, rfl, rfl, rfl⟩
  · unfold drain
    rw [g4]
    cases hc : s.ccontexts <;> simp [hc]
  · intro hs
    have hd : parserOK (drain s) = true := drainN_ok _ s hs
    unfold parserOK at hd
    simp only [Bool.and_eq_true] at hd
    exact hd.1
  · cases hc : s.ccontexts with
    | nil =>
      have : contextExit s = s := by
        unfold contextExit; rw [hc]
      simpa [hc] using this
    | cons c rest =>
      cases hr : rest with
      | nil =>
        subst hr
        simpa [hc] using contextExit_single s c hc
      | cons p ps =>
        subst hr
        simpa [hc] using contextExit_cons s c p ps hc

/-- C6 witness: the drain invariant evaluated on a concrete state with
one open (unterminated) code-fence context. -/
theorem claimC6_witness :
    parserOK (Parser.mk [] 0
      [Context.code 0 true "py".data ["x".data]] []) = true ∧
    (drain (Parser.mk [] 0
      [Context.code 0 true "py".data ["x".data]] [])).blocks.all blockOK
      = true :=
  ⟨rfl,
   (claimC6_drain_closes_all
     (Parser.mk [] 0 [Context.code 0 true "py".data ["x".data]] [])
    ).2.2.2.2.1 rfl⟩
